import Mathlib

set_option maxRecDepth 8000

/-!
Verification development for the ProtoPy binary codec library.

The definitions below are a shallow embedding of `primitives.py` and
`containers.py`: byte strings are `List Nat` (each entry one byte),
Python integers are `Int` (or `Nat` where the source only ever holds
non-negative counts), a raised exception is `Option.none`, and each
Python method becomes a Lean function on an explicit coder-state
structure.  The theorems at the end of the file settle the frozen
claims C1 .. C10 about this code.
-/

/-- Model of the `ByteOrder` class of primitives.py: most- or
least-significant byte first (`MSB_FIRST` is the default). -/
inductive ByteOrder where
  | msbFirst
  | lsbFirst
  deriving DecidableEq, Repr

/-- Big-endian byte string of `n`, exactly `w` bytes, as produced by
`struct.pack` with a big-endian format for a value that fits. -/
def natToBytesBE : Nat → Nat → List Nat
  | 0, _ => []
  | w + 1, n => natToBytesBE w (n / 256) ++ [n % 256]

/-- Value of a big-endian byte string, as computed by
`int.from_bytes(bs, "big")`. -/
def natFromBytesBE (bs : List Nat) : Nat :=
  bs.foldl (fun acc b => acc * 256 + b) 0

/-- Model of the state of an `UnsignedInteger` / `SignedInteger` coder
after `__init__` ran: `signed` mirrors the `SIGNED` class attribute
(false for `UnsignedInteger`, true for `SignedInteger`), `width` the
byte width, `min`/`max` the effective bounds, `byteOrder` the
configured byte order.  The `default` attribute is not modelled here
because no claim about the integer coders mentions it. -/
structure IntCoder where
  signed : Bool
  width : Nat
  min : Int
  max : Int
  byteOrder : ByteOrder
  deriving DecidableEq, Repr

/-- Model of the keys of `UnsignedInteger.STANDARD_WIDTHS` (and of
`SignedInteger.STANDARD_WIDTHS`): the supported byte widths. -/
def STANDARD_WIDTHS : List Nat := [1, 2, 4, 8]

/-- Model of `UnsignedInteger.get_bounds` / `SignedInteger.get_bounds`,
selected by the `SIGNED` class attribute: the natural `(min, max)`
range of a `width`-byte integer.  These values coincide with the range
accepted by the corresponding `struct` pack format. -/
def get_bounds (signed : Bool) (width : Nat) : Int × Int :=
  if signed then (-(2 ^ (8 * width - 1)), 2 ^ (8 * width - 1) - 1)
  else (0, 2 ^ (8 * width) - 1)

/-- Model of `UnsignedInteger.__init__` (and, through the `signed`
flag, `SignedInteger.__init__`): a width outside `STANDARD_WIDTHS`
raises `ValueError`; the bounds start from `get_bounds` and the
user-supplied `min_value` / `max_value` are taken over only when they
narrow the natural range (`min_value > self.min`, `max_value <
self.max`), otherwise they are silently ignored. -/
def intCoderInit (signed : Bool) (width : Nat) (min_value max_value : Option Int)
    (byte_order : ByteOrder) : Option IntCoder :=
  if width ∈ STANDARD_WIDTHS then
    let lo := (get_bounds signed width).1
    let hi := (get_bounds signed width).2
    let mn := match min_value with
      | some m => if m > lo then m else lo
      | none => lo
    let mx := match max_value with
      | some x => if x < hi then x else hi
      | none => hi
    some { signed := signed, width := width, min := mn, max := mx,
           byteOrder := byte_order }
  else none

/-- Model of `UnsignedInteger.validate`: true iff
`self.min <= value <= self.max`; on failure the Python code raises
`ValueError`, so a caller that requires `validate` sees `false` here
exactly when the Python caller sees the exception. -/
def IntCoder.validate (c : IntCoder) (value : Int) : Bool :=
  decide (c.min ≤ value) && decide (value ≤ c.max)

/-- Byte string of the non-negative integer `u` in the given byte
order, `w` bytes wide. -/
def packBytes (bo : ByteOrder) (w u : Nat) : List Nat :=
  match bo with
  | ByteOrder.msbFirst => natToBytesBE w u
  | ByteOrder.lsbFirst => (natToBytesBE w u).reverse

/-- Non-negative integer value of a byte string in the given byte
order, as computed by `int.from_bytes(bs, byteorder)`. -/
def unpackNat (bo : ByteOrder) (bs : List Nat) : Nat :=
  match bo with
  | ByteOrder.msbFirst => natFromBytesBE bs
  | ByteOrder.lsbFirst => natFromBytesBE bs.reverse

/-- Model of `self.struct.pack(value)` for the standard-width
unsigned/signed formats: outside the format's range `struct.error` is
raised (`none`); inside, the two's-complement bytes of the value are
produced in the configured byte order.  The format range equals
`get_bounds` for the same signedness and width. -/
def structPack (signed : Bool) (bo : ByteOrder) (width : Nat) (v : Int) :
    Option (List Nat) :=
  if (get_bounds signed width).1 ≤ v ∧ v ≤ (get_bounds signed width).2 then
    some (packBytes bo width ((v % ((2 : Int) ^ (8 * width))).toNat))
  else none

/-- Model of `int.from_bytes(as_bytes, byteorder=self.byte_order,
signed=self.SIGNED)`, the `_decode_using_int` decode helper. -/
def intFromBytesPy (signed : Bool) (bo : ByteOrder) (bs : List Nat) : Int :=
  let u : Nat := unpackNat bo bs
  if signed && decide ((2 : Int) ^ (8 * bs.length - 1) ≤ (u : Int)) then
    (u : Int) - 2 ^ (8 * bs.length)
  else (u : Int)

/-- Model of `UnsignedInteger.encode` (also inherited by
`SignedInteger`): validate, then pack. -/
def IntCoder.encode (c : IntCoder) (value : Int) : Option (List Nat) :=
  if c.validate value then structPack c.signed c.byteOrder c.width value
  else none

/-- Model of `UnsignedInteger.decode` (also inherited by
`SignedInteger`): decode `buf[:width]`, validate the decoded value,
and return it with the remainder `buf[width:]`. -/
def IntCoder.decode (c : IntCoder) (buf : List Nat) : Option (Int × List Nat) :=
  let value := intFromBytesPy c.signed c.byteOrder (buf.take c.width)
  if c.validate value then some (value, buf.drop c.width) else none

/-- Model of `UnsignedInteger.capable_of`: the first standard width `w`
with `2 ** (8 * w) >= max_value` is selected (note: not `>`), and the
coder is built with `max_value` as the user upper bound; if no
standard width satisfies the test, `ValueError` is raised. -/
def capable_of (max_value : Int) (min_value : Option Int) : Option IntCoder :=
  match STANDARD_WIDTHS.find? (fun w => decide (((2 : Int) ^ (8 * w)) ≥ max_value)) with
  | some w => intCoderInit false w min_value (some max_value) ByteOrder.msbFirst
  | none => none

/-- Model of the state of `Boolean()` built with default arguments: a
width-1 `UnsignedInteger` with the natural bounds `[0, 255]`. -/
def booleanCoder : IntCoder :=
  { signed := false, width := 1, min := 0, max := 255,
    byteOrder := ByteOrder.msbFirst }

/-- Model of `Boolean.encode` restricted to the boolean values:
`"\x01" if value else "\x00"`.  No validation is performed. -/
def Boolean.encode (b : Bool) : List Nat := if b then [1] else [0]

/-- Model of `Boolean.encode` applied to a Python int, which the
dynamically typed source permits: the int is used for its truthiness
(0 is falsy, everything else truthy).  No validation is performed. -/
def Boolean.encodeInt (v : Int) : List Nat := if v = 0 then [0] else [1]

/-- Model of `Boolean._decode_bool`: false iff the byte string equals
`"\x00"`. -/
def Boolean.decodeByte (as_bytes : List Nat) : Bool := !(as_bytes == [0])

/-- Model of `UnsignedInteger.decode` as inherited by `Boolean`, whose
`_decode_func` is `_decode_bool`: the decoded boolean is validated (a
Python bool compares as 0/1 against the numeric bounds) and returned
with the remainder of the buffer. -/
def Boolean.decode (c : IntCoder) (buf : List Nat) : Option (Bool × List Nat) :=
  let b := Boolean.decodeByte (buf.take c.width)
  if c.validate (if b then 1 else 0) then some (b, buf.drop c.width) else none

/-- Model of the state of an `Enum` coder: the underlying
`UnsignedInteger` state plus the member-value set `self.members.values`
(a `Holder` stores `set(kwargs.values())`; only membership is ever
queried, so a list models it). -/
structure EnumCoder extends IntCoder where
  values : List Int
  deriving DecidableEq, Repr

/-- Model of `Enum.__init__` called without an explicit `default`
argument: the width is checked by the inherited
`UnsignedInteger.__init__` and the member values are recorded.  The
computation of the default attribute is modelled separately by
`enumComputeDefault`. -/
def enumInit (members : List (String × Int)) (width : Nat) : Option EnumCoder :=
  (intCoderInit false width none none ByteOrder.msbFirst).map
    (fun c => { toIntCoder := c, values := members.map (fun p => p.2) })

/-- Model of `Enum.validate`: true iff the value is one of the member
values (the inherited `[min, max]` bounds are not consulted). -/
def EnumCoder.validate (e : EnumCoder) (value : Int) : Bool :=
  decide (value ∈ e.values)

/-- Model of `UnsignedInteger.encode` as inherited by `Enum`: the
overridden membership `validate` runs first, then `struct.pack` with
the unsigned format of the configured width. -/
def EnumCoder.encode (e : EnumCoder) (value : Int) : Option (List Nat) :=
  if e.validate value then structPack false e.byteOrder e.width value else none

/-- Model of `UnsignedInteger.decode` as inherited by `Enum`
(`SIGNED = False`): decode `width` bytes, then the membership
`validate` must accept the decoded value. -/
def EnumCoder.decode (e : EnumCoder) (buf : List Nat) : Option (Int × List Nat) :=
  let value := intFromBytesPy false e.byteOrder (buf.take e.width)
  if e.validate value then some (value, buf.drop e.width) else none

/-- A Python value as stored in the `default` attribute by
`Enum.__init__`: the source can leave `None`, store a member *name*
(a string), or store an int passed by the caller. -/
inductive PyVal where
  | none
  | str (s : String)
  | int (n : Int)
  deriving DecidableEq, Repr

/-- Lexicographic comparison of two character lists by code point,
helper for the model of Python's string ordering. -/
def charsLt : List Char → List Char → Bool
  | [], [] => false
  | [], _ :: _ => true
  | _ :: _, [] => false
  | a :: as, b :: bs =>
    if a.toNat < b.toNat then true
    else if b.toNat < a.toNat then false
    else charsLt as bs

/-- Python's `<` on strings: lexicographic by code point. -/
def strLt (a b : String) : Bool := charsLt a.data b.data

/-- Insertion into a lexicographically sorted list of strings, helper
for the model of Python's `sorted`. -/
def insertSorted (s : String) : List String → List String
  | [] => [s]
  | t :: ts => if strLt s t || s == t then s :: t :: ts else t :: insertSorted s ts

/-- Model of Python's `sorted` on a list of strings (lexicographic,
ascending). -/
def sortStrings : List String → List String
  | [] => []
  | s :: ss => insertSorted s (sortStrings ss)

/-- Model of the default-attribute computation of `Enum.__init__`.
With no explicit default and a non-empty member dict the source runs
`default = sorted(members.keys())[0]`, i.e. it stores the
alphabetically first member NAME (a string), not any member value.
With an explicit default it runs `default not in members.values`,
where `members.values` is the unbound method object of the dict, so
the membership test raises `TypeError` for every explicit default. -/
def enumComputeDefault (defaultArg : Option Int) (members : List (String × Int)) :
    Option PyVal :=
  match defaultArg with
  | Option.none =>
    if members.length > 0 then
      some (PyVal.str ((sortStrings (members.map (fun p => p.1))).headD ""))
    else some PyVal.none
  | some _ => Option.none

/-- Model of the state of a `Sequence` coder after `__init__`
(primitives.py).  The element coder is not part of the state here; the
decoding functions below take it as an explicit argument. -/
structure SequenceCfg where
  max : Option Nat
  min : Nat
  include_length : Bool
  length_width : Option Nat
  length_coder : IntCoder
  deriving DecidableEq, Repr

/-- Model of `UnsignedInteger.capable_of(self.max, min_value=self.min)`
as called by `Sequence.__init__`, where `self.max` may be Python
`None`: under Python 2 ordering `2 ** 8 >= None` is true, so a `None`
maximum selects width 1 and imposes no upper narrowing. -/
def capableOfOptMax (maxLength : Option Nat) (minLength : Nat) : Option IntCoder :=
  match maxLength with
  | Option.none =>
    intCoderInit false 1 (some (minLength : Int)) Option.none ByteOrder.msbFirst
  | some m => capable_of (m : Int) (some (minLength : Int))

/-- Model of `Sequence.__init__`: raises `ValueError` iff both
`max_length` and `length_width` are `None`; no other definition-time
check is performed (in particular `max_length < min_length` is not
rejected), and the length coder is built by `capable_of`. -/
def sequenceInit (max_length : Option Nat) (min_length : Nat)
    (include_length : Bool) (length_width : Option Nat) : Option SequenceCfg :=
  if max_length.isNone && length_width.isNone then Option.none
  else
    (capableOfOptMax max_length min_length).map (fun lc =>
      { max := max_length, min := min_length, include_length := include_length,
        length_width := length_width, length_coder := lc })

/-- Model of `Sequence.validate`: `self.min <= count <= self.max`.
Under Python 2 ordering `count <= None` is false, so an unbounded
sequence never validates. -/
def SequenceCfg.validate (cfg : SequenceCfg) (count : Nat) : Bool :=
  decide (cfg.min ≤ count) && (match cfg.max with
    | Option.none => false
    | some m => decide (count ≤ m))

/-- Model of the loop of `Sequence._read_countless`: starting from
`data = stream.read()` it decodes elements while `data` is non-empty
and fewer than `self.max` items were produced; a decode failure
(`ValueError`) propagates.  The fuel argument is `self.max` minus the
number of items already produced, which bounds the iteration count of
the Python loop.  (With `self.max = None` the Python 2 comparison
`len(items) < None` is false and the loop body never runs, which
callers model by passing fuel 0.) -/
def readCountlessLoop {V : Type} (dec : List Nat → Option (V × List Nat)) :
    Nat → List Nat → Option (List V)
  | 0, _ => some []
  | _ + 1, [] => some []
  | fuel + 1, b :: rest =>
    match dec (b :: rest) with
    | Option.none => Option.none
    | some (v, remaining) =>
      (readCountlessLoop dec fuel remaining).map (fun items => v :: items)

/-- Model of `Sequence.read_from` on the countless path
(`include_length = False`, so `_read_length` returns −1 and
`_read_elements` calls `_read_countless`), followed by the final
`validate` of the element count. -/
def SequenceCfg.read_from_countless {V : Type} (cfg : SequenceCfg)
    (dec : List Nat → Option (V × List Nat)) (stream : List Nat) :
    Option (List V) :=
  match readCountlessLoop dec (cfg.max.getD 0) stream with
  | Option.none => Option.none
  | some items => if cfg.validate items.length then some items else Option.none

/-- An element decoder that consumes exactly one byte per element,
used to instantiate the sequence claims at a concrete element coder. -/
def byteDec : List Nat → Option (Nat × List Nat)
  | [] => Option.none
  | b :: rest => some (b, rest)

/-- Model of the `serializables` dict of `RecordBase.__new__`: the
class attributes that are `Coder` instances.  An attribute is a pair
of its name and `some coder` when it is a Coder (`none` otherwise).
The compile step treats the Coder objects opaquely (it only stores
them), so the coder type `C` is a parameter: the encode-only claims
instantiate it with an encoding function `V → List Nat`, the
encode/decode claim with a `MemberCoder`. -/
def serializables {C : Type} (attrs : List (String × Option C)) :
    List (String × C) :=
  attrs.filterMap (fun p => p.2.map (fun c => (p.1, c)))

/-- Model of the `OrderedDict` assignment `members[name] = coder`: an
existing key keeps its position and gets the new value, a new key is
appended. -/
def odInsert {C : Type} (members : List (String × C))
    (name : String) (c : C) : List (String × C) :=
  if members.any (fun p => p.1 == name) then
    members.map (fun p => if p.1 == name then (name, c) else p)
  else members ++ [(name, c)]

/-- Model of the loop of `RecordBase.__new__` over `order`: each order
entry must name a serializable attribute (else `ValueError`), and the
members `OrderedDict` is filled in order. -/
def compileLoop {C : Type} (s : List (String × C))
    (members : List (String × C)) :
    List String → Option (List (String × C))
  | [] => some members
  | n :: rest =>
    match List.lookup n s with
    | Option.none => Option.none
    | some c => compileLoop s (odInsert members n c) rest

/-- Model of the schema compilation performed by `RecordBase.__new__`
given the declared attributes and the `order` tuple: the ordered
members dict. -/
def compileRecord {C : Type} (attrs : List (String × Option C))
    (order : List String) : Option (List (String × C)) :=
  compileLoop (serializables attrs) [] order

/-- Model of `RecordBase.__new__` including the initial check that the
`order` attribute exists (`attrs.get("order")` is not `None`). -/
def recordNew {C : Type} (attrs : List (String × Option C))
    (orderAttr : Option (List String)) :
    Option (List (String × C)) :=
  match orderAttr with
  | Option.none => Option.none
  | some order => compileRecord attrs order

/-- Model of a member `Coder` object as `RecordBase` uses it: `enc` is
the member's encode (the bytes it appends to the stream for a value),
`dec` its decode (the value it reads from the front of the remaining
bytes, together with what is left of them).  Stream consumption is
modelled by threading the list of remaining bytes explicitly. -/
structure MemberCoder (V : Type) where
  enc : V → List Nat
  dec : List Nat → Option (V × List Nat)

/-- Model of `RecordBase.encode`: walk the ordered members dict and
write each member's value (`getattr(value, name)`, modelled by the
function `value`) with its coder; the produced byte string is the
concatenation. -/
def recordEncode {V : Type} (members : List (String × MemberCoder V))
    (value : String → V) : List Nat :=
  (members.map (fun p => p.2.enc (value p.1))).flatten

/-- Model of `RecordBase.decode`: the comprehension
`{name: coder.decode(stream) for name, coder in self.members.iteritems()}`
runs over the members `OrderedDict` in its order (the code's own
comment relies on this), each member coder consuming its bytes from
the front of the stream; the resulting name-to-value assignments (the
`kwargs` passed to `self(**kwargs)`) are returned in that same order,
together with the unconsumed remainder of the stream.  A failing
member decode (`ValueError`) propagates. -/
def recordDecode {V : Type} :
    List (String × MemberCoder V) → List Nat →
    Option (List (String × V) × List Nat)
  | [], stream => some ([], stream)
  | (n, c) :: rest, stream =>
    match c.dec stream with
    | Option.none => Option.none
    | some (v, s2) =>
      match recordDecode rest s2 with
      | Option.none => Option.none
      | some (kvs, s3) => some ((n, v) :: kvs, s3)

/-- Model of `ChoiceBase.__new__` reduced to what it computes about
the tag: `variants` maps each integer tag to a variant class
(classes are modelled by numeric identifiers).  The reverse map must
not collapse (two tags mapping to one class raise `ValueError`); the
tag width is the declared `tag_width` attribute or the constant
fallback 1; a variant count above `2 ** (8 * tag_width)` raises
`ValueError`; finally the tag `Enum` is built, whose inherited
`UnsignedInteger.__init__` rejects a width outside `STANDARD_WIDTHS`.
The result is the computed tag width. -/
def choiceNew (tag_width_attr : Option Nat) (variants : List (Nat × Nat)) :
    Option Nat :=
  let reverse_variants := (variants.map (fun p => p.2)).dedup
  if reverse_variants.length ≠ variants.length then Option.none
  else
    let tag_width := tag_width_attr.getD 1
    if variants.length > 2 ^ (8 * tag_width) then Option.none
    else if tag_width ∈ STANDARD_WIDTHS then some tag_width
    else Option.none

/-- Modelled from the spec: the claimed default for a Choice's tag
width, "the smallest byte width that can represent all configured
tags".  This definition follows the spec's words and exists only to be
compared with the default actually computed by `choiceNew`. -/
def specSmallestTagWidth (tags : List Nat) : Option Nat :=
  ((List.range 8).map (fun k => k + 1)).find?
    (fun w => tags.all (fun t => t < 2 ^ (8 * w)))

/-- Concrete width-1 unsigned coder with natural bounds, the state of
`UnsignedInteger(width=1)`. -/
def u8 : IntCoder :=
  { signed := false, width := 1, min := 0, max := 255,
    byteOrder := ByteOrder.msbFirst }

/-- Concrete width-1 signed coder with natural bounds, the state of
`SignedInteger(width=1)`. -/
def s8 : IntCoder :=
  { signed := true, width := 1, min := -128, max := 127,
    byteOrder := ByteOrder.msbFirst }

/-- Concrete width-8 unsigned coder produced by
`UnsignedInteger.capable_of(2 ** 64)`. -/
def u64cap : IntCoder :=
  { signed := false, width := 8, min := 0, max := 2 ^ 64 - 1,
    byteOrder := ByteOrder.msbFirst }

/-- Concrete coder with crossed user bounds, the state of
`UnsignedInteger(width=1, min_value=300)`. -/
def u8crossed : IntCoder :=
  { signed := false, width := 1, min := 300, max := 255,
    byteOrder := ByteOrder.msbFirst }

/-- Concrete Enum state for members `{"Two": 2}` at width 1. -/
def enumTwo : EnumCoder :=
  { signed := false, width := 1, min := 0, max := 255,
    byteOrder := ByteOrder.msbFirst, values := [2] }

/-- Concrete Enum state for members `{"a": 300}` at width 1: the
member value 300 is not representable in one byte. -/
def enum300 : EnumCoder :=
  { signed := false, width := 1, min := 0, max := 255,
    byteOrder := ByteOrder.msbFirst, values := [300] }

/-- Concrete Enum state for members `{"b": 1, "a": 2}` at width 1. -/
def enumBA : EnumCoder :=
  { signed := false, width := 1, min := 0, max := 255,
    byteOrder := ByteOrder.msbFirst, values := [1, 2] }

/-- Concrete Sequence state of
`Sequence(max_length=1, min_length=5)`: the crossed bounds are
accepted by `__init__`. -/
def seqMaxLtMin : SequenceCfg :=
  { max := some 1, min := 5, include_length := false, length_width := Option.none,
    length_coder := { signed := false, width := 1, min := 5, max := 1,
                      byteOrder := ByteOrder.msbFirst } }

/-- Concrete Sequence state of
`Sequence(max_length=None, include_length=True, length_width=2)`: an
unbounded sequence that writes a length prefix is accepted. -/
def seqUnboundedPrefixed : SequenceCfg :=
  { max := Option.none, min := 0, include_length := true, length_width := some 2,
    length_coder := { signed := false, width := 1, min := 0, max := 255,
                      byteOrder := ByteOrder.msbFirst } }

/-- Concrete Sequence state of
`Sequence(max_length=10, min_length=3, include_length=False)`. -/
def seqMin3 : SequenceCfg :=
  { max := some 10, min := 3, include_length := false, length_width := Option.none,
    length_coder := { signed := false, width := 1, min := 3, max := 10,
                      byteOrder := ByteOrder.msbFirst } }

/-- Concrete Sequence state of
`Sequence(max_length=10, include_length=False)` (default
`min_length=0`). -/
def seqMin0 : SequenceCfg :=
  { max := some 10, min := 0, include_length := false, length_width := Option.none,
    length_coder := { signed := false, width := 1, min := 0, max := 10,
                      byteOrder := ByteOrder.msbFirst } }

/-- Concrete member coder (encoding side only) used to instantiate
the Record compilation claim: encodes a number as one byte. -/
def encOne : Nat → List Nat := fun v => [v % 256]

/-- Concrete member coder used to instantiate the Record
encode/decode claim: one byte holding the value. -/
def mcOne : MemberCoder Nat :=
  { enc := fun v => [v],
    dec := fun bs => match bs with
      | [] => Option.none
      | b :: rest => some (b, rest) }

/-- Concrete member coder used to instantiate the Record
encode/decode claim: a marker byte 7 followed by the value. -/
def mcTwo : MemberCoder Nat :=
  { enc := fun v => [7, v],
    dec := fun bs => match bs with
      | _ :: b :: rest => some (b, rest)
      | _ => Option.none }

/-- Concrete Record attribute dict: coders `x`, `y` and one non-Coder
attribute, in one textual declaration order. -/
def attrsA : List (String × Option (MemberCoder Nat)) :=
  [("x", some mcOne), ("note", Option.none), ("y", some mcTwo)]

/-- The same coders as `attrsA` in a different textual declaration
order. -/
def attrsB : List (String × Option (MemberCoder Nat)) :=
  [("y", some mcTwo), ("x", some mcOne)]

/-! Helper lemmas about the byte-level primitives. -/

theorem natToBytesBE_length (w : Nat) : ∀ n, (natToBytesBE w n).length = w := by
  induction w with
  | zero => intro n; rfl
  | succ w ih => intro n; simp [natToBytesBE, ih]

theorem natFromBytesBE_append (bs : List Nat) (b : Nat) :
    natFromBytesBE (bs ++ [b]) = natFromBytesBE bs * 256 + b := by
  simp [natFromBytesBE, List.foldl_append]

theorem natFromBytesBE_natToBytesBE (w : Nat) :
    ∀ n, n < 2 ^ (8 * w) → natFromBytesBE (natToBytesBE w n) = n := by
  induction w with
  | zero =>
    intro n h
    have hn : n = 0 := by simpa using h
    subst hn; rfl
  | succ w ih =>
    intro n h
    have hpow : 2 ^ (8 * (w + 1)) = 2 ^ (8 * w) * 256 := by
      have h8 : 8 * (w + 1) = 8 * w + 8 := by omega
      rw [h8, pow_add]; norm_num
    have hdiv : n / 256 < 2 ^ (8 * w) := by
      rw [hpow] at h
      have h256 : (0 : Nat) < 256 := by norm_num
      exact Nat.div_lt_of_lt_mul (by omega)
    rw [natToBytesBE, natFromBytesBE_append, ih (n / 256) hdiv]
    omega

theorem packBytes_length (bo : ByteOrder) (w u : Nat) :
    (packBytes bo w u).length = w := by
  cases bo <;> simp [packBytes, natToBytesBE_length]

theorem unpackNat_packBytes (bo : ByteOrder) (w u : Nat) (h : u < 2 ^ (8 * w)) :
    unpackNat bo (packBytes bo w u) = u := by
  cases bo <;> simp [packBytes, unpackNat, natFromBytesBE_natToBytesBE w u h]

theorem castPow2 (k : Nat) : (((2 : Nat) ^ k : Nat) : Int) = (2 : Int) ^ k := by
  push_cast; ring

/-- Central lemma: packing a value inside the format range of the
struct format succeeds, produces exactly `width` bytes, and
`int.from_bytes` recovers the value (two's complement for signed). -/
theorem structPack_spec (signed : Bool) (bo : ByteOrder) (w : Nat) (v : Int)
    (hw : 1 ≤ w)
    (hlo : (get_bounds signed w).1 ≤ v) (hhi : v ≤ (get_bounds signed w).2) :
    structPack signed bo w v =
      some (packBytes bo w ((v % ((2 : Int) ^ (8 * w))).toNat)) ∧
    (packBytes bo w ((v % ((2 : Int) ^ (8 * w))).toNat)).length = w ∧
    intFromBytesPy signed bo
      (packBytes bo w ((v % ((2 : Int) ^ (8 * w))).toNat)) = v := by
  have hMpos : (0 : Int) < 2 ^ (8 * w) := by positivity
  set u : Nat := (v % ((2 : Int) ^ (8 * w))).toNat with hudef
  have hunn : (0 : Int) ≤ v % (2 : Int) ^ (8 * w) := Int.emod_nonneg v (ne_of_gt hMpos)
  have hult : v % (2 : Int) ^ (8 * w) < (2 : Int) ^ (8 * w) :=
    Int.emod_lt_of_pos v hMpos
  have hucast : (u : Int) = v % (2 : Int) ^ (8 * w) := Int.toNat_of_nonneg hunn
  have huNat : u < 2 ^ (8 * w) := by
    have h1 : (u : Int) < (((2 : Nat) ^ (8 * w) : Nat) : Int) := by
      rw [castPow2]; omega
    exact_mod_cast h1
  refine ⟨?_, packBytes_length bo w u, ?_⟩
  · unfold structPack
    rw [if_pos ⟨hlo, hhi⟩]
  · unfold intFromBytesPy
    rw [packBytes_length bo w u, unpackNat_packBytes bo w u huNat]
    have hMsplit : (2 : Int) ^ (8 * w) = 2 * 2 ^ (8 * w - 1) := by
      have h81 : 8 * w = (8 * w - 1) + 1 := by omega
      rw [h81, pow_succ]; exact mul_comm _ _
    cases signed with
    | false =>
      have hlo' : (0 : Int) ≤ v := by simpa [get_bounds] using hlo
      have hhi' : v ≤ (2 : Int) ^ (8 * w) - 1 := by simpa [get_bounds] using hhi
      have hmod : v % (2 : Int) ^ (8 * w) = v := by
        apply Int.emod_eq_of_lt hlo'
        omega
      simp only [Bool.false_and, Bool.false_eq_true, if_false, hucast, hmod]
    | true =>
      have hlo' : -(2 : Int) ^ (8 * w - 1) ≤ v := by simpa [get_bounds] using hlo
      have hhi' : v ≤ (2 : Int) ^ (8 * w - 1) - 1 := by simpa [get_bounds] using hhi
      by_cases hv : 0 ≤ v
      · have hmod : v % (2 : Int) ^ (8 * w) = v := by
          apply Int.emod_eq_of_lt hv
          omega
        have hcond :
            ¬ ((2 : Int) ^ (8 * w - 1) ≤ (u : Int)) := by
          rw [hucast, hmod]; omega
        simp only [Bool.true_and, decide_eq_true_eq]
        rw [if_neg (by simpa using hcond), hucast, hmod]
      · push_neg at hv
        have hmod : v % (2 : Int) ^ (8 * w) = v + 2 ^ (8 * w) := by
          have h1 : (v + 2 ^ (8 * w) * 1) % (2 : Int) ^ (8 * w) =
              v % (2 : Int) ^ (8 * w) :=
            Int.add_mul_emod_self_left v ((2 : Int) ^ (8 * w)) 1
          have h2 : (v + 2 ^ (8 * w)) % (2 : Int) ^ (8 * w) = v + 2 ^ (8 * w) := by
            apply Int.emod_eq_of_lt
            · omega
            · omega
          rw [mul_one] at h1
          rw [← h1, h2]
        have hcond : (2 : Int) ^ (8 * w - 1) ≤ (u : Int) := by
          rw [hucast, hmod]; omega
        simp only [Bool.true_and, decide_eq_true_eq]
        rw [if_pos (by simpa using hcond), hucast, hmod]
        ring

/-- Inversion of `intCoderInit`: what `__init__` guarantees about a
successfully constructed integer coder. -/
theorem intCoderInit_spec (sg : Bool) (w : Nat) (mv xv : Option Int)
    (bo : ByteOrder) (c : IntCoder)
    (h : intCoderInit sg w mv xv bo = some c) :
    c.signed = sg ∧ c.width = w ∧ c.byteOrder = bo ∧ w ∈ STANDARD_WIDTHS ∧
    (get_bounds sg w).1 ≤ c.min ∧ c.max ≤ (get_bounds sg w).2 ∧
    (∀ m, mv = some m → m ≤ (get_bounds sg w).1 → c.min = (get_bounds sg w).1) ∧
    (∀ x, xv = some x → (get_bounds sg w).2 ≤ x → c.max = (get_bounds sg w).2) := by
  unfold intCoderInit at h
  by_cases hw : w ∈ STANDARD_WIDTHS
  · rw [if_pos hw] at h
    injection h with h
    subst h
    refine ⟨rfl, rfl, rfl, hw, ?_, ?_, ?_, ?_⟩
    · cases mv with
      | none => simp
      | some m =>
        simp only
        by_cases hm : m > (get_bounds sg w).1
        · rw [if_pos hm]; omega
        · rw [if_neg hm]
    · cases xv with
      | none => simp
      | some x =>
        simp only
        by_cases hx : x < (get_bounds sg w).2
        · rw [if_pos hx]; omega
        · rw [if_neg hx]
    · intro m hm hle
      subst hm
      simp only
      rw [if_neg (by omega)]
    · intro x hx hge
      subst hx
      simp only
      rw [if_neg (by omega)]
  · rw [if_neg hw] at h
    exact absurd h (by simp)

/-- A member of `STANDARD_WIDTHS` is at least 1. -/
theorem standard_width_pos : ∀ w ∈ STANDARD_WIDTHS, 1 ≤ w := by decide

theorem take_drop_exact {α : Type} (bs rest : List α) (w : Nat) (h : bs.length = w) :
    (bs ++ rest).take w = bs ∧ (bs ++ rest).drop w = rest := by
  subst h
  constructor
  · simp
  · simp

/-- Round-trip core for the integer coders: a value accepted by a
coder built by `__init__` encodes to exactly `width` bytes and decodes
back to itself, consuming exactly those bytes. -/
theorem intCoder_roundtrip (sg : Bool) (w : Nat) (mv xv : Option Int)
    (bo : ByteOrder) (c : IntCoder) (v : Int) (rest : List Nat)
    (h : intCoderInit sg w mv xv bo = some c)
    (hvlo : c.min ≤ v) (hvhi : v ≤ c.max) :
    (c.encode v).isSome = true ∧
    ((c.encode v).getD []).length = c.width ∧
    c.decode (((c.encode v).getD []) ++ rest) = some (v, rest) := by
  obtain ⟨hsg, hw, hbo, hstd, hmin, hmax, _, _⟩ := intCoderInit_spec sg w mv xv bo c h
  have hw1 : 1 ≤ w := standard_width_pos w hstd
  have hlo : (get_bounds sg w).1 ≤ v := le_trans hmin hvlo
  have hhi : v ≤ (get_bounds sg w).2 := le_trans hvhi hmax
  obtain ⟨hpack, hlen, hval⟩ := structPack_spec sg bo w v hw1 hlo hhi
  have hvalid : c.validate v = true := by
    unfold IntCoder.validate
    simp only [Bool.and_eq_true, decide_eq_true_eq]
    exact ⟨hvlo, hvhi⟩
  have henc : c.encode v =
      some (packBytes bo w ((v % ((2 : Int) ^ (8 * w))).toNat)) := by
    unfold IntCoder.encode
    rw [hvalid, if_pos rfl, hsg, hbo, hw, hpack]
  set bs := packBytes bo w ((v % ((2 : Int) ^ (8 * w))).toNat) with hbs
  refine ⟨by rw [henc]; rfl, by rw [henc]; simpa [hw] using hlen, ?_⟩
  rw [henc]
  simp only [Option.getD_some]
  obtain ⟨htake, hdrop⟩ := take_drop_exact bs rest w hlen
  unfold IntCoder.decode
  rw [hw, htake, hdrop, hsg, hbo, hval]
  simp [hvalid]

/-- Round-trip core for `Enum`: a member value representable in the
configured width encodes to `width` bytes and decodes back. -/
theorem enum_roundtrip (members : List (String × Int)) (w : Nat) (e : EnumCoder)
    (v : Int) (rest : List Nat)
    (h : enumInit members w = some e)
    (hmem : e.validate v = true) (hv0 : 0 ≤ v) (hvmax : v ≤ e.max) :
    (e.encode v).isSome = true ∧
    ((e.encode v).getD []).length = e.width ∧
    e.decode (((e.encode v).getD []) ++ rest) = some (v, rest) := by
  unfold enumInit at h
  cases hc : intCoderInit false w none none ByteOrder.msbFirst with
  | none => rw [hc] at h; exact absurd h (by simp)
  | some c =>
    rw [hc] at h
    simp only [Option.map_some'] at h
    obtain ⟨hsg, hw, hbo, hstd, hmin, hmax, _, _⟩ :=
      intCoderInit_spec false w none none ByteOrder.msbFirst c hc
    have he : e.toIntCoder = c := by rw [← Option.some_inj.mp h]
    have hew : e.width = w := by rw [show e.width = e.toIntCoder.width from rfl, he, hw]
    have hemax : e.max = c.max := by rw [show e.max = e.toIntCoder.max from rfl, he]
    have hebo : e.byteOrder = c.byteOrder := by
      rw [show e.byteOrder = e.toIntCoder.byteOrder from rfl, he]
    have hw1 : 1 ≤ w := standard_width_pos w hstd
    have hlo : (get_bounds false w).1 ≤ v := by simpa [get_bounds] using hv0
    have hhi : v ≤ (get_bounds false w).2 := by
      calc v ≤ e.max := hvmax
        _ = c.max := hemax
        _ ≤ (get_bounds false w).2 := hmax
    obtain ⟨hpack, hlen, hval⟩ := structPack_spec false e.byteOrder w v hw1 hlo hhi
    have henc : e.encode v =
        some (packBytes e.byteOrder w ((v % ((2 : Int) ^ (8 * w))).toNat)) := by
      unfold EnumCoder.encode
      rw [hmem, if_pos rfl, hew, hpack]
    set bs := packBytes e.byteOrder w ((v % ((2 : Int) ^ (8 * w))).toNat) with hbs
    refine ⟨by rw [henc]; rfl, by rw [henc]; simpa [hew] using hlen, ?_⟩
    rw [henc]
    simp only [Option.getD_some]
    obtain ⟨htake, hdrop⟩ := take_drop_exact bs rest w hlen
    unfold EnumCoder.decode
    rw [hew, htake, hdrop, hval]
    simp [hmem]

/-- Round-trip core for `Boolean` on the boolean values. -/
theorem bool_roundtrip (b : Bool) (rest : List Nat) :
    (Boolean.encode b).length = booleanCoder.width ∧
    Boolean.decode booleanCoder (Boolean.encode b ++ rest) = some (b, rest) := by
  cases b <;>
    simp [Boolean.encode, Boolean.decode, Boolean.decodeByte, booleanCoder,
      IntCoder.validate]

/-- C1 (corrected): for UnsignedInteger and SignedInteger (any standard
width, any user narrowing, either byte order) every value the coder
validates encodes to exactly `width` bytes and `decode` recovers it,
consuming exactly `width` bytes of the input and returning the rest;
the same holds for Boolean on the boolean values, and for Enum on
every member value representable in the configured width.  The
original claim fails for an Enum whose member set contains a value
outside the width's natural range; see `C1_counterexample`. -/
theorem C1_roundtrip :
    (∀ (sg : Bool) (w : Nat) (mv xv : Option Int) (bo : ByteOrder)
       (c : IntCoder) (v : Int) (rest : List Nat),
       intCoderInit sg w mv xv bo = some c → c.min ≤ v → v ≤ c.max →
       (c.encode v).isSome = true ∧
       ((c.encode v).getD []).length = c.width ∧
       c.decode (((c.encode v).getD []) ++ rest) = some (v, rest)) ∧
    (∀ (b : Bool) (rest : List Nat),
       (Boolean.encode b).length = booleanCoder.width ∧
       Boolean.decode booleanCoder (Boolean.encode b ++ rest) = some (b, rest)) ∧
    (∀ (members : List (String × Int)) (w : Nat) (e : EnumCoder) (v : Int)
       (rest : List Nat),
       enumInit members w = some e → e.validate v = true → 0 ≤ v → v ≤ e.max →
       (e.encode v).isSome = true ∧
       ((e.encode v).getD []).length = e.width ∧
       e.decode (((e.encode v).getD []) ++ rest) = some (v, rest)) :=
  ⟨fun sg w mv xv bo c v rest h h1 h2 =>
      intCoder_roundtrip sg w mv xv bo c v rest h h1 h2,
   bool_roundtrip,
   fun members w e v rest h h1 h2 h3 =>
      enum_roundtrip members w e v rest h h1 h2 h3⟩

/-- Counterexample to C1 as stated: the Enum over `{"a": 300}` at
width 1 accepts 300 as valid (it is a member), but `encode` fails with
`struct.error` because 300 does not fit one byte, so
`decode(encode(300))` cannot return 300. -/
theorem C1_counterexample :
    enumInit [("a", 300)] 1 = some enum300 ∧
    enum300.validate 300 = true ∧
    enum300.encode 300 = none :=
  ⟨rfl, by decide, by decide⟩

/-- Witness for C1 at concrete inputs: an unsigned byte 200, a signed
byte −5, the boolean true, and the Enum member 2. -/
theorem C1_witness :
    ((u8.encode 200).isSome = true ∧
     ((u8.encode 200).getD []).length = u8.width ∧
     u8.decode (((u8.encode 200).getD []) ++ [9]) = some (200, [9])) ∧
    ((s8.encode (-5)).isSome = true ∧
     ((s8.encode (-5)).getD []).length = s8.width ∧
     s8.decode (((s8.encode (-5)).getD []) ++ []) = some (-5, [])) ∧
    ((Boolean.encode true).length = booleanCoder.width ∧
     Boolean.decode booleanCoder (Boolean.encode true ++ [3]) = some (true, [3])) ∧
    ((enumTwo.encode 2).isSome = true ∧
     ((enumTwo.encode 2).getD []).length = enumTwo.width ∧
     enumTwo.decode (((enumTwo.encode 2).getD []) ++ []) = some (2, [])) :=
  ⟨C1_roundtrip.1 false 1 none none ByteOrder.msbFirst u8 200 [9] rfl
     (by decide) (by decide),
   C1_roundtrip.1 true 1 none none ByteOrder.msbFirst s8 (-5) [] rfl
     (by decide) (by decide),
   C1_roundtrip.2.1 true [3],
   C1_roundtrip.2.2 [("Two", 2)] 1 enumTwo 2 [] rfl (by decide) (by decide)
     (by decide)⟩

/-- C10 (confirmed): user-supplied `min_value` / `max_value` can only
narrow the bounds of an UnsignedInteger or SignedInteger, never widen
them: an override outside the natural range is silently ignored, the
effective bounds always stay inside the natural range of the width,
and `validate` never accepts a value unrepresentable in `width`
bytes. -/
theorem C10_user_bounds_only_narrow (sg : Bool) (w : Nat) (mv xv : Option Int)
    (bo : ByteOrder) (c : IntCoder)
    (h : intCoderInit sg w mv xv bo = some c) :
    ((get_bounds sg w).1 ≤ c.min ∧ c.max ≤ (get_bounds sg w).2) ∧
    (∀ m, mv = some m → m ≤ (get_bounds sg w).1 → c.min = (get_bounds sg w).1) ∧
    (∀ x, xv = some x → (get_bounds sg w).2 ≤ x → c.max = (get_bounds sg w).2) ∧
    (∀ v : Int, c.validate v = true →
       (get_bounds sg w).1 ≤ v ∧ v ≤ (get_bounds sg w).2) := by
  obtain ⟨hsg, hw, hbo, hstd, hmin, hmax, hmv, hxv⟩ :=
    intCoderInit_spec sg w mv xv bo c h
  refine ⟨⟨hmin, hmax⟩, hmv, hxv, ?_⟩
  intro v hv
  unfold IntCoder.validate at hv
  simp only [Bool.and_eq_true, decide_eq_true_eq] at hv
  omega

/-- Witness for C10 at `UnsignedInteger(width=1, min_value=-7,
max_value=999)`: both out-of-range overrides are ignored, and a
validated value (200) lies in the natural range. -/
theorem C10_witness :
    ((get_bounds false 1).1 ≤ u8.min ∧ u8.max ≤ (get_bounds false 1).2) ∧
    u8.min = (get_bounds false 1).1 ∧
    u8.max = (get_bounds false 1).2 ∧
    ((get_bounds false 1).1 ≤ (200 : Int) ∧ (200 : Int) ≤ (get_bounds false 1).2) := by
  have h := C10_user_bounds_only_narrow false 1 (some (-7)) (some 999)
    ByteOrder.msbFirst u8 (by decide)
  exact ⟨h.1, h.2.1 (-7) rfl (by decide), h.2.2.1 999 rfl (by decide),
    h.2.2.2 200 (by decide)⟩

/-- C2 (corrected): for UnsignedInteger and SignedInteger, `encode`
validates first and fails for every value outside `[min, max]`, and
the boundary values `min` and `max` themselves encode successfully
whenever the narrowed range is non-empty; for Enum, `encode` fails for
every non-member and succeeds for every member representable in the
width.  (Boolean.encode performs no validation at all, and an Enum's
numeric bounds are not its boundary of validity; see
`C2_counterexample`.) -/
theorem C2_bounds_validation :
    (∀ (sg : Bool) (w : Nat) (mv xv : Option Int) (bo : ByteOrder)
       (c : IntCoder) (v : Int),
       intCoderInit sg w mv xv bo = some c →
       (v < c.min ∨ c.max < v) → c.encode v = none) ∧
    (∀ (sg : Bool) (w : Nat) (mv xv : Option Int) (bo : ByteOrder)
       (c : IntCoder),
       intCoderInit sg w mv xv bo = some c → c.min ≤ c.max →
       (c.encode c.min).isSome = true ∧ (c.encode c.max).isSome = true) ∧
    (∀ (members : List (String × Int)) (w : Nat) (e : EnumCoder) (v : Int),
       enumInit members w = some e → v ∉ e.values → e.encode v = none) ∧
    (∀ (members : List (String × Int)) (w : Nat) (e : EnumCoder) (v : Int),
       enumInit members w = some e → v ∈ e.values → 0 ≤ v → v ≤ e.max →
       (e.encode v).isSome = true) := by
  refine ⟨?_, ?_, ?_, ?_⟩
  · intro sg w mv xv bo c v _ hout
    unfold IntCoder.encode
    rw [if_neg]
    unfold IntCoder.validate
    simp only [Bool.and_eq_true, decide_eq_true_eq]
    omega
  · intro sg w mv xv bo c h hminmax
    have h1 := intCoder_roundtrip sg w mv xv bo c c.min [] h (le_refl _) hminmax
    have h2 := intCoder_roundtrip sg w mv xv bo c c.max [] h hminmax (le_refl _)
    exact ⟨h1.1, h2.1⟩
  · intro members w e v _ hnm
    unfold EnumCoder.encode
    rw [if_neg]
    unfold EnumCoder.validate
    simp only [decide_eq_true_eq]
    exact hnm
  · intro members w e v h hm hv0 hvmax
    have hval : e.validate v = true := by
      unfold EnumCoder.validate
      simp only [decide_eq_true_eq]
      exact hm
    exact (enum_roundtrip members w e v [] h hval hv0 hvmax).1

/-- Counterexample to C2 as stated: `Boolean.encode` skips validation,
so the out-of-range values 300 and −1 encode without any error even
though the coder's bounds are `[0, 255]`; moreover an Enum's numeric
boundary values 0 and 255 fail to encode when they are not members,
and a crossed user range (`min_value=300` on width 1) leaves even the
`min` boundary unencodable. -/
theorem C2_counterexample :
    (Boolean.encodeInt 300 = [1] ∧ Boolean.encodeInt (-1) = [1] ∧
     booleanCoder.max = 255 ∧ booleanCoder.min = 0) ∧
    (enumInit [("Two", 2)] 1 = some enumTwo ∧ enumTwo.min = 0 ∧
     enumTwo.max = 255 ∧ enumTwo.encode 0 = none ∧ enumTwo.encode 255 = none) ∧
    (intCoderInit false 1 (some 300) none ByteOrder.msbFirst = some u8crossed ∧
     u8crossed.min = 300 ∧ u8crossed.max = 255 ∧
     u8crossed.encode u8crossed.min = none) :=
  ⟨⟨by decide, by decide, rfl, rfl⟩,
   ⟨rfl, rfl, rfl, by decide, by decide⟩,
   ⟨rfl, rfl, rfl, by decide⟩⟩

/-- Witness for C2 at concrete inputs: width-1 unsigned coder with 300
out of range and boundaries 0 and 255, Enum over `{2}` with non-member
3 and member 2. -/
theorem C2_witness :
    u8.encode 300 = none ∧
    (u8.encode 0).isSome = true ∧ (u8.encode 255).isSome = true ∧
    enumTwo.encode 3 = none ∧ (enumTwo.encode 2).isSome = true := by
  refine ⟨?_, ?_, ?_, ?_, ?_⟩
  · exact C2_bounds_validation.1 false 1 none none ByteOrder.msbFirst u8 300 rfl
      (by decide)
  · exact (C2_bounds_validation.2.1 false 1 none none ByteOrder.msbFirst u8 rfl
      (by decide)).1
  · exact (C2_bounds_validation.2.1 false 1 none none ByteOrder.msbFirst u8 rfl
      (by decide)).2
  · exact C2_bounds_validation.2.2.1 [("Two", 2)] 1 enumTwo 3 rfl (by decide)
  · exact C2_bounds_validation.2.2.2 [("Two", 2)] 1 enumTwo 2 rfl (by decide)
      (by decide) (by decide)

/-- C6 (code bug): `capable_of` tests `2 ** (8 * width) >= max_value`
instead of `> max_value` (equivalently `max_value <= 2**(8*width)-1`),
so `capable_of(256)` picks width 1; the returned coder's effective
maximum is 255 (the user bound 256 is above the natural range and is
ignored), so it cannot validate or encode 256 — contradicting the
claim and the method's own docstring ("capable of encoding / decoding
values up to at least max_value").  The same off-by-one makes
`capable_of(2 ** 64)` return a width-8 coder that cannot encode
`2 ** 64` instead of failing. -/
theorem C6_capable_of_off_by_one :
    capable_of 256 none = some u8 ∧
    u8.validate 256 = false ∧
    u8.encode 256 = none ∧
    capable_of (2 ^ 64) none = some u64cap ∧
    u64cap.width = 8 ∧
    u64cap.validate (2 ^ 64) = false ∧
    u64cap.encode (2 ^ 64) = none :=
  ⟨by decide, by decide, by decide, by decide, rfl, by decide, by decide⟩

/-- C5 (code bug): with no explicit default, `Enum.__init__` computes
`sorted(members.keys())[0]`, i.e. it stores the alphabetically first
member NAME (the string "a", whose value is 2) instead of the lowest
member VALUE (1) — contradicting the code's own comment ("The default
will be the lowest value in the enum's members").  The membership
`validate` itself behaves as claimed, and an explicitly passed default
always raises at definition time (`default not in members.values`
applies `in` to the unbound dict method, a `TypeError`), member or
not. -/
theorem C5_enum_default_bug :
    enumComputeDefault none [("b", 1), ("a", 2)] = some (PyVal.str "a") ∧
    List.lookup "a" [("b", (1 : Int)), ("a", 2)] = some 2 ∧
    (enumInit [("b", 1), ("a", 2)] 1 = some enumBA ∧
     (1 : Int) ∈ enumBA.values ∧ enumBA.values.all (fun v => 1 ≤ v) = true) ∧
    (enumBA.validate 1 = true ∧ enumBA.validate 2 = true ∧
     enumBA.validate 3 = false) ∧
    enumComputeDefault (some 1) [("b", 1), ("a", 2)] = none ∧
    enumComputeDefault (some 3) [("b", 1), ("a", 2)] = none :=
  ⟨rfl, by decide, ⟨rfl, by decide, by decide⟩, ⟨by decide, by decide, by decide⟩,
   rfl, rfl⟩

theorem intCoderInit_isSome (sg : Bool) (w : Nat) (mv xv : Option Int)
    (bo : ByteOrder) (h : w ∈ STANDARD_WIDTHS) :
    (intCoderInit sg w mv xv bo).isSome = true := by
  unfold intCoderInit
  rw [if_pos h]
  rfl

theorem capable_of_isSome (m : Int) (mv : Option Int) (h : m ≤ (2 : Int) ^ 64) :
    (capable_of m mv).isSome = true := by
  unfold capable_of
  cases hfind : STANDARD_WIDTHS.find?
      (fun w => decide (((2 : Int) ^ (8 * w)) ≥ m)) with
  | none =>
    exfalso
    have h8 := List.find?_eq_none.mp hfind 8 (by decide)
    simp only [decide_eq_true_eq] at h8
    apply h8
    show ((2 : Int) ^ (8 * 8)) ≥ m
    calc m ≤ (2 : Int) ^ 64 := h
      _ = (2 : Int) ^ (8 * 8) := by norm_num
  | some w =>
    exact intCoderInit_isSome false w mv (some m) ByteOrder.msbFirst
      (List.mem_of_find?_eq_some hfind)

/-- C7 (corrected): `Sequence.__init__` fails at definition time
exactly when both `max_length` and `length_width` are `None`; with a
finite `max_length` (at most `2 ** 64`, else `capable_of` fails) the
construction succeeds no matter how `min_length` compares to
`max_length`, and an unbounded sequence is accepted whenever
`length_width` is given, regardless of the length-prefix opt-out.
The original claim's `max_length < min_length` rejection does not
exist; see `C7_counterexample`. -/
theorem C7_sequence_definition_checks :
    (∀ (minL : Nat) (il : Bool), sequenceInit none minL il none = none) ∧
    (∀ (m minL : Nat) (il : Bool) (lw : Option Nat), (m : Int) ≤ 2 ^ 64 →
       (sequenceInit (some m) minL il lw).isSome = true) ∧
    (∀ (minL : Nat) (il : Bool) (w : Nat),
       (sequenceInit none minL il (some w)).isSome = true) := by
  refine ⟨?_, ?_, ?_⟩
  · intro minL il
    rfl
  · intro m minL il lw hm
    unfold sequenceInit
    have hcond : ((some m : Option Nat).isNone && lw.isNone) = false := rfl
    rw [hcond]
    simp only [Bool.false_eq_true, if_false]
    have hcap : (capableOfOptMax (some m) minL).isSome = true := by
      unfold capableOfOptMax
      exact capable_of_isSome (m : Int) (some (minL : Int)) hm
    cases hc : capableOfOptMax (some m) minL with
    | none => rw [hc] at hcap; exact absurd hcap (by simp)
    | some lc => rfl
  · intro minL il w
    unfold sequenceInit
    have hcond : ((none : Option Nat).isNone && (some w : Option Nat).isNone) = false := rfl
    rw [hcond]
    simp only [Bool.false_eq_true, if_false]
    have hcap : (capableOfOptMax none minL).isSome = true := by
      unfold capableOfOptMax
      exact intCoderInit_isSome false 1 (some (minL : Int)) none ByteOrder.msbFirst
        (by decide)
    cases hc : capableOfOptMax none minL with
    | none => rw [hc] at hcap; exact absurd hcap (by simp)
    | some lc => rfl

/-- Counterexample to C7 as stated: `Sequence(max_length=1,
min_length=5)` constructs without any definition-time error although
`max_length < min_length`, and `Sequence(max_length=None,
include_length=True, length_width=2)` constructs an unbounded sequence
that does NOT opt out of the length prefix. -/
theorem C7_counterexample :
    (sequenceInit (some 1) 5 false none = some seqMaxLtMin ∧
     seqMaxLtMin.max = some 1 ∧ seqMaxLtMin.min = 5) ∧
    (sequenceInit none 0 true (some 2) = some seqUnboundedPrefixed ∧
     seqUnboundedPrefixed.max = none ∧
     seqUnboundedPrefixed.include_length = true) :=
  ⟨⟨rfl, rfl, rfl⟩, ⟨rfl, rfl, rfl⟩⟩

/-- Witness for C7 at concrete inputs. -/
theorem C7_witness :
    sequenceInit none 7 true none = none ∧
    (sequenceInit (some 1) 5 false none).isSome = true ∧
    (sequenceInit none 0 true (some 2)).isSome = true :=
  ⟨C7_sequence_definition_checks.1 7 true,
   C7_sequence_definition_checks.2.1 1 5 false none (by decide),
   C7_sequence_definition_checks.2.2 0 true 2⟩

theorem sequenceInit_fields (m minL : Nat) (il : Bool) (lw : Option Nat)
    (cfg : SequenceCfg) (h : sequenceInit (some m) minL il lw = some cfg) :
    cfg.max = some m ∧ cfg.min = minL := by
  unfold sequenceInit at h
  simp only [Option.isNone_some, Bool.false_and, Bool.false_eq_true, if_false] at h
  cases hc : capableOfOptMax (some m) minL with
  | none => rw [hc] at h; exact absurd h (by simp)
  | some lc =>
    rw [hc] at h
    simp only [Option.map_some'] at h
    have hcfg := Option.some_inj.mp h
    rw [← hcfg]
    exact ⟨rfl, rfl⟩

theorem readCountlessLoop_nil {V : Type} (dec : List Nat → Option (V × List Nat))
    (fuel : Nat) : readCountlessLoop dec fuel [] = some [] := by
  cases fuel <;> rfl

theorem readCountlessLoop_length {V : Type}
    (dec : List Nat → Option (V × List Nat)) :
    ∀ (fuel : Nat) (data : List Nat) (items : List V),
      readCountlessLoop dec fuel data = some items → items.length ≤ fuel := by
  intro fuel
  induction fuel with
  | zero =>
    intro data items h
    have h2 : readCountlessLoop dec 0 data = some [] := by rfl
    rw [h2] at h
    have h3 := Option.some_inj.mp h
    rw [← h3]
    simp
  | succ fuel ih =>
    intro data items h
    cases data with
    | nil =>
      rw [readCountlessLoop_nil] at h
      have h3 := Option.some_inj.mp h
      rw [← h3]
      simp
    | cons b rest =>
      simp only [readCountlessLoop] at h
      cases hd : dec (b :: rest) with
      | none => rw [hd] at h; exact absurd h (by simp)
      | some p =>
        obtain ⟨v, remaining⟩ := p
        rw [hd] at h
        have h2 : Option.map (fun items => v :: items)
            (readCountlessLoop dec fuel remaining) = some items := h
        cases hl : readCountlessLoop dec fuel remaining with
        | none => rw [hl] at h2; exact absurd h2 (by simp)
        | some items2 =>
          rw [hl] at h2
          simp only [Option.map_some'] at h2
          have h3 := Option.some_inj.mp h2
          rw [← h3]
          simp only [List.length_cons]
          have h4 := ih remaining items2 hl
          omega

theorem readCountlessLoop_byteDec : ∀ (fuel : Nat) (data : List Nat),
    readCountlessLoop byteDec fuel data = some (data.take fuel) := by
  intro fuel
  induction fuel with
  | zero => intro data; rfl
  | succ fuel ih =>
    intro data
    cases data with
    | nil => rfl
    | cons b rest =>
      simp only [readCountlessLoop, byteDec]
      rw [ih rest]
      simp [List.take_succ_cons]

/-- C8 (corrected): a countless Sequence (no length prefix) with a
finite `max_length` and the default `min_length = 0` decodes a
depleted source as an empty list without error; for any element coder
the countless loop never produces more than `max_length` elements, and
with a one-byte-per-element coder on a longer source it stops after
exactly `max_length` elements, leaving the extra bytes undecoded.
With `min_length > 0` the final count validation raises on a depleted
source, so the original unrestricted claim fails; see
`C8_counterexample`. -/
theorem C8_countless_sequence :
    (∀ (V : Type) (m minL : Nat) (il : Bool) (lw : Option Nat)
       (cfg : SequenceCfg) (dec : List Nat → Option (V × List Nat)),
       sequenceInit (some m) minL il lw = some cfg → minL = 0 →
       cfg.read_from_countless dec [] = some []) ∧
    (∀ (V : Type) (dec : List Nat → Option (V × List Nat)) (maxLen : Nat)
       (data : List Nat) (items : List V),
       readCountlessLoop dec maxLen data = some items →
       items.length ≤ maxLen) ∧
    (∀ (maxLen : Nat) (data : List Nat),
       readCountlessLoop byteDec maxLen data = some (data.take maxLen)) := by
  refine ⟨?_, ?_, readCountlessLoop_byteDec⟩
  · intro V m minL il lw cfg dec h hmin0
    obtain ⟨hmax, hmin⟩ := sequenceInit_fields m minL il lw cfg h
    unfold SequenceCfg.read_from_countless
    rw [hmax]
    simp only [Option.getD_some]
    rw [readCountlessLoop_nil]
    have hval : cfg.validate 0 = true := by
      unfold SequenceCfg.validate
      rw [hmax, hmin, hmin0]
      simp
    simp [hval]
  · intro V dec maxLen data items h
    exact readCountlessLoop_length dec maxLen data items h

/-- Counterexample to C8 as stated: the countless
`Sequence(max_length=10, min_length=3)` raises `ValueError` on a
depleted source (the empty element list fails the `min <= 0` count
validation) instead of returning an empty list. -/
theorem C8_counterexample :
    sequenceInit (some 10) 3 false none = some seqMin3 ∧
    seqMin3.min = 3 ∧
    SequenceCfg.read_from_countless seqMin3 byteDec [] = none :=
  ⟨rfl, rfl, rfl⟩

/-- Witness for C8 at concrete inputs: `max_length=10, min_length=0`
on a depleted source, and `max_length=2` on the three-byte source
`[5, 6, 7]`, which decodes exactly the first two bytes. -/
theorem C8_witness :
    SequenceCfg.read_from_countless seqMin0 byteDec [] = some ([] : List Nat) ∧
    readCountlessLoop byteDec 2 [5, 6, 7] = some [5, 6] ∧
    ([5, 6] : List Nat).length ≤ 2 :=
  ⟨C8_countless_sequence.1 Nat 10 0 false none seqMin0 byteDec rfl rfl,
   C8_countless_sequence.2.2 2 [5, 6, 7],
   C8_countless_sequence.2.1 Nat byteDec 2 [5, 6, 7] [5, 6]
     (C8_countless_sequence.2.2 2 [5, 6, 7])⟩

theorem choiceNew_width_eq (ta : Option Nat) (vs : List (Nat × Nat)) (w : Nat)
    (h : choiceNew ta vs = some w) : w = ta.getD 1 := by
  unfold choiceNew at h
  dsimp only at h
  split_ifs at h
  all_goals simp_all

theorem choiceNew_overflow (ta : Option Nat) (vs : List (Nat × Nat))
    (hnd : (vs.map (fun p => p.2)).Nodup)
    (hlen : vs.length > 2 ^ (8 * ta.getD 1)) : choiceNew ta vs = none := by
  unfold choiceNew
  have hdedup : ((vs.map (fun p => p.2)).dedup).length = vs.length := by
    rw [List.dedup_eq_self.mpr hnd, List.length_map]
  rw [if_neg (fun hne => hne hdedup), if_pos hlen]

theorem choiceNew_ok (ta : Option Nat) (vs : List (Nat × Nat))
    (hnd : (vs.map (fun p => p.2)).Nodup)
    (hlen : vs.length ≤ 2 ^ (8 * ta.getD 1))
    (hstd : ta.getD 1 ∈ STANDARD_WIDTHS) : choiceNew ta vs = some (ta.getD 1) := by
  unfold choiceNew
  have hdedup : ((vs.map (fun p => p.2)).dedup).length = vs.length := by
    rw [List.dedup_eq_self.mpr hnd, List.length_map]
  rw [if_neg (fun hne => hne hdedup), if_neg (by omega), if_pos hstd]

/-- C4 (corrected): the tag width of a Choice is the explicitly
configured `tag_width` when one is given and otherwise the constant
fallback 1 — not the smallest width representing the configured tags;
a Choice whose variant count exceeds `2 ** (8 * tag_width)` fails at
definition time (so 257 variants with no explicit width fail, and
succeed with an explicit standard width of 2). -/
theorem C4_choice_tag_width :
    (∀ (ta : Option Nat) (vs : List (Nat × Nat)) (w : Nat),
       choiceNew ta vs = some w → w = ta.getD 1) ∧
    (∀ (ta : Option Nat) (vs : List (Nat × Nat)),
       (vs.map (fun p => p.2)).Nodup → vs.length > 2 ^ (8 * ta.getD 1) →
       choiceNew ta vs = none) ∧
    (∀ (ta : Option Nat) (vs : List (Nat × Nat)),
       (vs.map (fun p => p.2)).Nodup → vs.length ≤ 2 ^ (8 * ta.getD 1) →
       ta.getD 1 ∈ STANDARD_WIDTHS → choiceNew ta vs = some (ta.getD 1)) :=
  ⟨choiceNew_width_eq, choiceNew_overflow, choiceNew_ok⟩

/-- Counterexample to C4 as stated: a Choice over the two tags 0 and
1000 with no explicit `tag_width` is given tag width 1, while the
smallest byte width that can represent the tag 1000 (the spec's
claimed default) is 2. -/
theorem C4_counterexample :
    choiceNew none [(0, 10), (1000, 20)] = some 1 ∧
    specSmallestTagWidth [0, 1000] = some 2 :=
  ⟨by decide, by decide⟩

/-- Witness for C4 at concrete inputs: 257 distinct variants fail with
the default tag width and succeed with an explicit 2-byte width. -/
theorem C4_witness :
    choiceNew none ((List.range 257).map (fun i => (i, i))) = none ∧
    choiceNew (some 2) ((List.range 257).map (fun i => (i, i))) = some 2 := by
  have hmap : (((List.range 257).map (fun i => (i, i))).map (fun p => p.2)) =
      List.range 257 := by
    rw [List.map_map]
    exact List.map_id _
  have hnd : (((List.range 257).map (fun i => (i, i))).map (fun p => p.2)).Nodup := by
    rw [hmap]; exact List.nodup_range 257
  have hlen : ((List.range 257).map (fun i => (i, i))).length = 257 := by simp
  exact ⟨C4_choice_tag_width.2.1 none _ hnd (by rw [hlen]; decide),
         C4_choice_tag_width.2.2 (some 2) _ hnd (by rw [hlen]; decide) (by decide)⟩

theorem compileLoop_none_of_missing {C : Type}
    (s : List (String × C)) :
    ∀ (order : List String) (acc : List (String × C)) (n : String),
      n ∈ order → List.lookup n s = none → compileLoop s acc order = none := by
  intro order
  induction order with
  | nil => intro acc n hn; exact absurd hn (by simp)
  | cons m rest ih =>
    intro acc n hn hlook
    simp only [compileLoop]
    cases hm : List.lookup m s with
    | none => rfl
    | some c =>
      rcases List.mem_cons.mp hn with h | h
      · subst h; rw [hm] at hlook; exact absurd hlook (by simp)
      · exact ih (odInsert acc m c) n h hlook

theorem compileLoop_isSome_of_all {C : Type}
    (s : List (String × C)) :
    ∀ (order : List String) (acc : List (String × C)),
      (∀ n ∈ order, (List.lookup n s).isSome = true) →
      (compileLoop s acc order).isSome = true := by
  intro order
  induction order with
  | nil => intro acc _; rfl
  | cons m rest ih =>
    intro acc h
    simp only [compileLoop]
    cases hm : List.lookup m s with
    | none =>
      have h2 := h m (by simp)
      rw [hm] at h2
      exact absurd h2 (by simp)
    | some c => exact ih (odInsert acc m c) (fun n hn => h n (by simp [hn]))

theorem compileLoop_agree {C : Type} (s1 s2 : List (String × C)) :
    ∀ (order : List String) (acc : List (String × C)),
      (∀ n ∈ order, List.lookup n s1 = List.lookup n s2) →
      compileLoop s1 acc order = compileLoop s2 acc order := by
  intro order
  induction order with
  | nil => intro acc _; rfl
  | cons q rest ih =>
    intro acc hagree
    simp only [compileLoop]
    rw [← hagree q (by simp)]
    cases List.lookup q s1 with
    | none => rfl
    | some c =>
      show compileLoop s1 (odInsert acc q c) rest =
        compileLoop s2 (odInsert acc q c) rest
      exact ih (odInsert acc q c) (fun n hn => hagree n (by simp [hn]))

theorem odInsert_fresh {C : Type} (acc : List (String × C))
    (n : String) (c : C) (h : ∀ p ∈ acc, p.1 ≠ n) :
    odInsert acc n c = acc ++ [(n, c)] := by
  unfold odInsert
  rw [if_neg]
  intro hmem
  simp only [List.any_eq_true, beq_iff_eq] at hmem
  obtain ⟨p, hp, hpn⟩ := hmem
  exact h p hp hpn

theorem recordEncode_append {V : Type} (m1 m2 : List (String × MemberCoder V))
    (value : String → V) :
    recordEncode (m1 ++ m2) value =
      recordEncode m1 value ++ recordEncode m2 value := by
  unfold recordEncode
  rw [List.map_append, List.flatten_append]

theorem compileLoop_encode {V : Type} (s : List (String × MemberCoder V))
    (value : String → V) :
    ∀ (order : List String) (acc m : List (String × MemberCoder V)),
      compileLoop s acc order = some m → order.Nodup →
      (∀ n ∈ order, ∀ p ∈ acc, p.1 ≠ n) →
      recordEncode m value = recordEncode acc value ++
        (order.map (fun n => match List.lookup n s with
          | some c => c.enc (value n)
          | none => ([] : List Nat))).flatten := by
  intro order
  induction order with
  | nil =>
    intro acc m h _ _
    have h2 := Option.some_inj.mp h
    rw [← h2]
    simp [recordEncode]
  | cons q rest ih =>
    intro acc m h hnd hfresh
    simp only [compileLoop] at h
    cases hq : List.lookup q s with
    | none => rw [hq] at h; exact absurd h (by simp)
    | some c =>
      rw [hq] at h
      have h2 : compileLoop s (odInsert acc q c) rest = some m := h
      have hfq : ∀ p ∈ acc, p.1 ≠ q := hfresh q (by simp)
      have hins : odInsert acc q c = acc ++ [(q, c)] := odInsert_fresh acc q c hfq
      rw [hins] at h2
      have hnd2 : rest.Nodup := (List.nodup_cons.mp hnd).2
      have hqrest : q ∉ rest := (List.nodup_cons.mp hnd).1
      have hfresh2 : ∀ n ∈ rest, ∀ p ∈ acc ++ [(q, c)], p.1 ≠ n := by
        intro n hn p hp
        rcases List.mem_append.mp hp with hin | hin
        · exact hfresh n (by simp [hn]) p hin
        · have hpq : p = (q, c) := by simpa using hin
          subst hpq
          simp only
          intro hqq
          exact hqrest (hqq ▸ hn)
      have hrec := ih (acc ++ [(q, c)]) m h2 hnd2 hfresh2
      rw [hrec, recordEncode_append]
      simp only [List.map_cons, List.flatten_cons, hq]
      simp [recordEncode, List.append_assoc]

/-- C9 (corrected): Record schema compilation rejects a missing
`order` attribute and every order entry with no matching registered
Coder, and succeeds whenever each order entry has one; registered
Coder attributes missing from the order and duplicate names are NOT
rejected (see `C9_counterexample`). -/
theorem C9_record_compile_checks (V : Type)
    (attrs : List (String × Option (V → List Nat))) (order : List String) :
    recordNew attrs none = none ∧
    (∀ n, n ∈ order → List.lookup n (serializables attrs) = none →
       compileRecord attrs order = none) ∧
    ((∀ n ∈ order, (List.lookup n (serializables attrs)).isSome = true) →
       (compileRecord attrs order).isSome = true) := by
  refine ⟨rfl, ?_, ?_⟩
  · intro n hn hlook
    exact compileLoop_none_of_missing (serializables attrs) order [] n hn hlook
  · intro h
    exact compileLoop_isSome_of_all (serializables attrs) order [] h

/-- Counterexample to C9 as stated: a class with the registered Coder
`x` and an order that omits it compiles without error (the coder is
silently dropped), and a duplicated order entry is silently collapsed
instead of rejected. -/
theorem C9_counterexample :
    recordNew [("x", some encOne)] (some []) =
      some ([] : List (String × (Nat → List Nat))) ∧
    recordNew [("x", some encOne)] (some ["x", "x"]) = some [("x", encOne)] :=
  ⟨rfl, rfl⟩

/-- Witness for C9 at concrete inputs: a missing order attribute, an
order entry with no Coder, and a well-formed one-member record. -/
theorem C9_witness :
    recordNew [("x", some encOne)] (none : Option (List String)) = none ∧
    compileRecord [("x", some encOne)] ["q"] = none ∧
    (compileRecord [("x", some encOne)] ["x"]).isSome = true := by
  refine ⟨(C9_record_compile_checks Nat [("x", some encOne)] ["q"]).1, ?_, ?_⟩
  · exact (C9_record_compile_checks Nat [("x", some encOne)] ["q"]).2.1 "q"
      (by simp) rfl
  · refine (C9_record_compile_checks Nat [("x", some encOne)] ["x"]).2.2 ?_
    intro n hn
    have hx : n = "x" := by simpa using hn
    subst hx
    rfl

theorem compileLoop_keys {C : Type} (s : List (String × C)) :
    ∀ (order : List String) (acc m : List (String × C)),
      compileLoop s acc order = some m → order.Nodup →
      (∀ n ∈ order, ∀ p ∈ acc, p.1 ≠ n) →
      m.map (fun p => p.1) = acc.map (fun p => p.1) ++ order := by
  intro order
  induction order with
  | nil =>
    intro acc m h _ _
    have h2 := Option.some_inj.mp h
    rw [← h2]
    simp
  | cons q rest ih =>
    intro acc m h hnd hfresh
    simp only [compileLoop] at h
    cases hq : List.lookup q s with
    | none => rw [hq] at h; exact absurd h (by simp)
    | some c =>
      rw [hq] at h
      have h2 : compileLoop s (odInsert acc q c) rest = some m := h
      have hfq : ∀ p ∈ acc, p.1 ≠ q := hfresh q (by simp)
      have hins : odInsert acc q c = acc ++ [(q, c)] := odInsert_fresh acc q c hfq
      rw [hins] at h2
      have hnd2 : rest.Nodup := (List.nodup_cons.mp hnd).2
      have hqrest : q ∉ rest := (List.nodup_cons.mp hnd).1
      have hfresh2 : ∀ n ∈ rest, ∀ p ∈ acc ++ [(q, c)], p.1 ≠ n := by
        intro n hn p hp
        rcases List.mem_append.mp hp with hin | hin
        · exact hfresh n (by simp [hn]) p hin
        · have hpq : p = (q, c) := by simpa using hin
          subst hpq
          simp only
          intro hqq
          exact hqrest (hqq ▸ hn)
      have hrec := ih (acc ++ [(q, c)]) m h2 hnd2 hfresh2
      rw [hrec]
      simp

theorem recordEncode_cons {V : Type} (n : String) (c : MemberCoder V)
    (ps : List (String × MemberCoder V)) (value : String → V) :
    recordEncode ((n, c) :: ps) value =
      c.enc (value n) ++ recordEncode ps value := by
  simp [recordEncode]

theorem recordDecode_keys {V : Type} :
    ∀ (members : List (String × MemberCoder V)) (stream : List Nat)
      (kvs : List (String × V)) (rest : List Nat),
      recordDecode members stream = some (kvs, rest) →
      kvs.map (fun p => p.1) = members.map (fun p => p.1) := by
  intro members
  induction members with
  | nil =>
    intro stream kvs rest h
    have h2 : (([], stream) : List (String × V) × List Nat) = (kvs, rest) :=
      Option.some_inj.mp h
    have h3 : kvs = [] := (congrArg Prod.fst h2).symm
    rw [h3]
    rfl
  | cons p ps ih =>
    intro stream kvs rest h
    obtain ⟨n, c⟩ := p
    simp only [recordDecode] at h
    cases hd : c.dec stream with
    | none => rw [hd] at h; exact absurd h (by simp)
    | some pr =>
      obtain ⟨v, s2⟩ := pr
      rw [hd] at h
      have h2 : (match recordDecode ps s2 with
          | Option.none => Option.none
          | some (kvs, s3) => some ((n, v) :: kvs, s3)) = some (kvs, rest) := h
      cases hr : recordDecode ps s2 with
      | none => rw [hr] at h2; exact absurd h2 (by simp)
      | some pr2 =>
        obtain ⟨kvs2, s3⟩ := pr2
        rw [hr] at h2
        have h3 : (((n, v) :: kvs2, s3) : List (String × V) × List Nat) =
            (kvs, rest) := Option.some_inj.mp h2
        have h4 : kvs = (n, v) :: kvs2 := (congrArg Prod.fst h3).symm
        rw [h4]
        simp only [List.map_cons]
        rw [ih s2 kvs2 s3 hr]

theorem recordDecode_roundtrip {V : Type} :
    ∀ (members : List (String × MemberCoder V)) (value : String → V),
      (∀ p ∈ members, ∀ (v : V) (rest : List Nat),
        p.2.dec (p.2.enc v ++ rest) = some (v, rest)) →
      ∀ rest : List Nat,
        recordDecode members (recordEncode members value ++ rest) =
          some (members.map (fun p => (p.1, value p.1)), rest) := by
  intro members
  induction members with
  | nil =>
    intro value _ rest
    simp [recordDecode, recordEncode]
  | cons p ps ih =>
    intro value hinv rest
    obtain ⟨n, c⟩ := p
    rw [recordEncode_cons, List.append_assoc]
    have hd : c.dec (c.enc (value n) ++ (recordEncode ps value ++ rest)) =
        some (value n, recordEncode ps value ++ rest) :=
      hinv (n, c) (by simp) (value n) (recordEncode ps value ++ rest)
    have hr := ih value (fun q hq v r => hinv q (by simp [hq]) v r) rest
    simp only [recordDecode]
    rw [hd]
    simp only [hr, List.map_cons]

/-- C3 (confirmed): a compiled Record's member list follows the
explicit `order` attribute; the encoding of a Record value is the
concatenation of each declared member's encoding in that order, with
no padding or separators; `decode` reads members in that same order --
the decoded assignments carry the member names in exactly the member
order, and when every member's decode inverts its encode the record
decode consumes precisely the record encoding and recovers every
member value in order; and the compiled members and encodings depend
only on the name-to-Coder mapping and `order`, never on the
incidental declaration order of the attributes, so two Records with
the same members and the same explicit order produce identical
encodings. -/
theorem C3_record_order (V : Type)
    (attrs1 attrs2 : List (String × Option (MemberCoder V))) (order : List String)
    (m1 m2 : List (String × MemberCoder V)) (value : String → V)
    (h1 : compileRecord attrs1 order = some m1)
    (h2 : compileRecord attrs2 order = some m2)
    (hnd : order.Nodup) :
    m1.map (fun p => p.1) = order ∧
    recordEncode m1 value =
      (order.map (fun n => match List.lookup n (serializables attrs1) with
        | some c => c.enc (value n)
        | none => ([] : List Nat))).flatten ∧
    (∀ (stream : List Nat) (kvs : List (String × V)) (rest : List Nat),
       recordDecode m1 stream = some (kvs, rest) →
       kvs.map (fun p => p.1) = m1.map (fun p => p.1)) ∧
    ((∀ p ∈ m1, ∀ (v : V) (rest : List Nat),
        p.2.dec (p.2.enc v ++ rest) = some (v, rest)) →
       ∀ rest : List Nat,
         recordDecode m1 (recordEncode m1 value ++ rest) =
           some (m1.map (fun p => (p.1, value p.1)), rest)) ∧
    ((∀ n ∈ order, List.lookup n (serializables attrs1) =
        List.lookup n (serializables attrs2)) →
      m1 = m2 ∧ recordEncode m1 value = recordEncode m2 value) := by
  refine ⟨?_, ?_, ?_, ?_, ?_⟩
  · have h := compileLoop_keys (serializables attrs1) order [] m1 h1 hnd (by simp)
    simpa using h
  · have h := compileLoop_encode (serializables attrs1) value order [] m1 h1 hnd
      (by simp)
    simpa [recordEncode] using h
  · intro stream kvs rest h
    exact recordDecode_keys m1 stream kvs rest h
  · intro hinv rest
    exact recordDecode_roundtrip m1 value hinv rest
  · intro hagree
    have hsame : compileLoop (serializables attrs1) [] order =
        compileLoop (serializables attrs2) [] order :=
      compileLoop_agree (serializables attrs1) (serializables attrs2) order []
        hagree
    have hmm : some m1 = some m2 := by
      unfold compileRecord at h1 h2
      rw [← h1, ← h2, hsame]
    have hm := Option.some_inj.mp hmm
    exact ⟨hm, by rw [hm]⟩

/-- Witness for C3 at concrete inputs: the same two coders declared in
two different textual orders with the same explicit order compile to
the member list `y, x`; the encoding is the in-order concatenation
`[7, 3] ++ [3]`; decoding the encoding plus a trailing byte reads `y`
then `x`, recovering both values and the unread remainder; and
decoding the bare encoding yields assignments whose names follow the
member order. -/
theorem C3_witness :
    ([("y", mcTwo), ("x", mcOne)].map (fun p => p.1)) = ["y", "x"] ∧
    recordEncode [("y", mcTwo), ("x", mcOne)] (fun _ => (3 : Nat)) =
      ((["y", "x"]).map (fun n =>
        match List.lookup n (serializables attrsA) with
        | some c => c.enc 3
        | none => ([] : List Nat))).flatten ∧
    recordDecode [("y", mcTwo), ("x", mcOne)]
        (recordEncode [("y", mcTwo), ("x", mcOne)] (fun _ => (3 : Nat)) ++ [9]) =
      some ([("y", 3), ("x", 3)], [9]) ∧
    ([("y", (3 : Nat)), ("x", 3)].map (fun p => p.1)) =
      ([("y", mcTwo), ("x", mcOne)].map (fun p => p.1)) ∧
    ([("y", mcTwo), ("x", mcOne)] : List (String × MemberCoder Nat)) =
      [("y", mcTwo), ("x", mcOne)] ∧
    recordEncode [("y", mcTwo), ("x", mcOne)] (fun _ => (3 : Nat)) = [7, 3, 3] := by
  have h := C3_record_order Nat attrsA attrsB ["y", "x"]
    [("y", mcTwo), ("x", mcOne)] [("y", mcTwo), ("x", mcOne)]
    (fun _ => (3 : Nat)) rfl rfl (by decide)
  have hinv : ∀ p ∈ ([("y", mcTwo), ("x", mcOne)] :
      List (String × MemberCoder Nat)),
      ∀ (v : Nat) (rest : List Nat), p.2.dec (p.2.enc v ++ rest) = some (v, rest) := by
    intro p hp v rest
    rcases (by simpa using hp : p = ("y", mcTwo) ∨ p = ("x", mcOne)) with h1 | h1 <;>
      subst h1 <;> rfl
  have hagree : ∀ n ∈ (["y", "x"] : List String),
      List.lookup n (serializables attrsA) =
        List.lookup n (serializables attrsB) := by
    intro n hn
    rcases (by simpa using hn : n = "y" ∨ n = "x") with h1 | h1 <;> subst h1 <;> rfl
  exact ⟨h.1, h.2.1, h.2.2.2.1 hinv [9],
    h.2.2.1 [7, 3, 3] [("y", 3), ("x", 3)] [] rfl,
    (h.2.2.2.2 hagree).1, by decide⟩
